import Mathlib

/-!
Verification of the Wordle guess-evaluation core of the TPSIT-Wordle
repository.

The evaluator lives in the `app.post('/api/guess')` handler of
`come dovrebbe venire/server.js`:

* the handler rejects a request when `!guess || !target ||
  guess.length !== target.length` with the single 400 response
  `{ error: 'Dati non validi.' }`;
* otherwise both words are canonicalized with `toUpperCase()`;
* a result array of the guess's length is filled with `'absent'`;
* pass 1 walks the positions and, where `guessArr[i] === targetArr[i]`,
  sets `result[i] = 'correct'` and nulls both array slots;
* pass 2 walks the positions again, skips nulled guess slots, looks up
  `targetArr.indexOf(guessArr[i])` and, when found, sets
  `result[i] = 'present'` and nulls that target slot;
* the JSON response carries `result` and the uppercased `guess`.

Strings are embedded as `List Char`, the two possibly-missing request
fields as `Option (List Char)`, the nullable working arrays as
`List (Option Char)`, and the fallible handler as `Except String`.
The spec's verdict label `exact` is the code's string `'correct'`.

The specification's two-pass reference algorithm (pass 1 exact matches,
pass 2 consuming the leftmost unconsumed target occurrence) is embedded
separately as `specEval` and proved equal to the code's evaluator.
-/

namespace Wordle

/-- Per-position verdict. The server uses the string labels
`'correct'`, `'present'`, `'absent'`; the spec calls `'correct'`
`exact`. -/
inductive Verdict where
  | correct
  | present
  | absent
deriving DecidableEq, Repr

/-- Pass 1 of the handler (server.js lines 152-158), fused with the
initialization `Array(guessUpper.length).fill('absent')` (line 147):
positionally equal letters get verdict `correct` and both the guess slot
and the target slot at that position are nulled (`targetArr[i] = null;
guessArr[i] = null`); all other positions keep verdict `absent` and
their letters. Returns `(guessArr, targetArr, result)` after the
loop. -/
def pass1 : List Char → List Char → List (Option Char) × List (Option Char) × List Verdict
  | g :: gs, t :: ts =>
    let (gs', ts', rs) := pass1 gs ts
    if g = t then (none :: gs', none :: ts', Verdict.correct :: rs)
    else (some g :: gs', some t :: ts', Verdict.absent :: rs)
  | _, _ => ([], [], [])

/-- One pass-2 lookup (server.js lines 163-166):
`const idx = targetArr.indexOf(guessArr[i]); if (idx !== -1)
targetArr[idx] = null`. Returns the updated `targetArr` when the letter
is found among the non-null slots, `none` when `indexOf` yields `-1`. -/
def consume : List (Option Char) → Char → Option (List (Option Char))
  | [], _ => none
  | x :: xs, c =>
    if x = some c then some (none :: xs)
    else (consume xs c).map (fun ys => x :: ys)

/-- Pass 2 of the handler (server.js lines 161-168): nulled guess slots
are skipped (`if (guessArr[i] === null) continue`) and keep their
verdict from pass 1; for the rest, a successful `indexOf` lookup turns
the verdict into `present` and consumes that target slot, otherwise the
verdict from pass 1 (still `absent`) is kept. -/
def pass2 : List (Option Char) → List Verdict → List (Option Char) → List Verdict
  | none :: gs, r :: rs, tArr => r :: pass2 gs rs tArr
  | some c :: gs, r :: rs, tArr =>
    match consume tArr c with
    | some tArr' => Verdict.present :: pass2 gs rs tArr'
    | none => r :: pass2 gs rs tArr
  | _, _, _ => []

/-- The core evaluation algorithm of `/api/guess` (server.js lines
146-168) on already-canonicalized words: pass 1 followed by pass 2. -/
def evaluateGuess (guess target : List Char) : List Verdict :=
  let (gArr, tArr, res) := pass1 guess target
  pass2 gArr res tArr

/-- The caller's win condition (public/game.js line 283):
`dati.result.every(r => r === 'correct')`. -/
def haVinto (result : List Verdict) : Bool :=
  result.all (fun r => r == Verdict.correct)

/-- The whole `/api/guess` handler (server.js lines 135-171): the guard
`!guess || !target || guess.length !== target.length` answers the
single 400 error `'Dati non validi.'`; otherwise both words are
uppercased, evaluated, and the response carries the verdicts and the
uppercased guess. A missing request field is `none`; `!s` is true for
a missing or empty string. -/
def apiGuess : Option (List Char) → Option (List Char) → Except String (List Verdict × List Char)
  | some guess, some target =>
    if guess.isEmpty || target.isEmpty || guess.length != target.length then
      Except.error "Dati non validi."
    else
      let guessUpper := guess.map Char.toUpper
      let targetUpper := target.map Char.toUpper
      Except.ok (evaluateGuess guessUpper targetUpper, guessUpper)
  | _, _ => Except.error "Dati non validi."

/-- Modelled from the spec's words (reference for the refinement claim):
the unconsumed target letters left over after pass 1, in left-to-right
order — one occurrence for every position that is not an exact match. -/
def specRemaining (guess target : List Char) : List Char :=
  ((guess.zip target).filter (fun p => p.1 != p.2)).map Prod.snd

/-- Modelled from the spec's words (reference for the refinement claim):
pass 2 over the guess/target position pairs. An exact position keeps
verdict `exact`; otherwise the leftmost unconsumed target occurrence
equal to the guess letter, if any, is consumed (`List.erase` removes
exactly the leftmost occurrence) and the verdict is `present`; else the
verdict stays `absent`. -/
def specPass2 : List (Char × Char) → List Char → List Verdict
  | [], _ => []
  | (gc, tc) :: rest, rem =>
    if gc = tc then Verdict.correct :: specPass2 rest rem
    else if rem.contains gc then Verdict.present :: specPass2 rest (rem.erase gc)
    else Verdict.absent :: specPass2 rest rem

/-- Modelled from the spec's words (reference for the refinement claim):
the complete two-pass reference evaluation. -/
def specEval (guess target : List Char) : List Verdict :=
  specPass2 (guess.zip target) (specRemaining guess target)

/-- A verdict that claims a target occurrence: `exact` or `present`. -/
def scores (v : Verdict) : Bool :=
  v == Verdict.correct || v == Verdict.present

lemma consume_isSome (tArr : List (Option Char)) (c : Char) :
    (consume tArr c).isSome = (tArr.filterMap id).contains c := by
  induction tArr with
  | nil => simp [consume]
  | cons x xs ih =>
    cases x with
    | none => simpa [consume] using ih
    | some d =>
      by_cases hdc : d = c
      · simp [consume, hdc]
      · simp [consume, hdc, Option.isSome_map, ih, bne_iff_ne]
        exact fun h => absurd h.symm hdc

lemma consume_filterMap (tArr : List (Option Char)) (c : Char) :
    ∀ tArr', consume tArr c = some tArr' →
      tArr'.filterMap id = (tArr.filterMap id).erase c := by
  induction tArr with
  | nil => intro tArr' h; simp [consume] at h
  | cons x xs ih =>
    intro tArr' h
    rw [consume] at h
    split at h
    · next heq =>
      subst heq
      obtain rfl : none :: xs = tArr' := by simpa using h
      simp [List.erase_cons_head]
    · next hne =>
      rw [Option.map_eq_some'] at h
      obtain ⟨ys, hys, rfl⟩ := h
      have hrec := ih ys hys
      cases x with
      | none => simpa using hrec
      | some d =>
        have hdc : ¬ d = c := fun hh => hne (by rw [hh])
        simp only [List.filterMap_cons, id] at *
        rw [hrec, List.erase_cons_tail]
        simp [hdc]

lemma pass1_eq (g t : List Char) :
    pass1 g t = ((g.zip t).map (fun p => if p.1 = p.2 then none else some p.1),
                 (g.zip t).map (fun p => if p.1 = p.2 then none else some p.2),
                 (g.zip t).map (fun p => if p.1 = p.2 then Verdict.correct else Verdict.absent)) := by
  induction g generalizing t with
  | nil => cases t <;> simp [pass1]
  | cons a gs ih =>
    cases t with
    | nil => simp [pass1]
    | cons b ts =>
      simp only [pass1, ih, List.zip_cons_cons, List.map_cons]
      by_cases hab : a = b <;> simp [hab]

lemma pass2_eq_spec (pairs : List (Char × Char)) :
    ∀ tArr : List (Option Char),
      pass2 (pairs.map fun p => if p.1 = p.2 then none else some p.1)
            (pairs.map fun p => if p.1 = p.2 then Verdict.correct else Verdict.absent)
            tArr
        = specPass2 pairs (tArr.filterMap id) := by
  induction pairs with
  | nil => intro tArr; simp [pass2, specPass2]
  | cons p rest ih =>
    intro tArr
    obtain ⟨a, b⟩ := p
    by_cases hab : a = b
    · simp [pass2, specPass2, hab, ih]
    · simp only [List.map_cons, if_neg hab, specPass2]
      cases hc : consume tArr a with
      | some tArr' =>
        have hcon : (tArr.filterMap id).contains a = true := by
          rw [← consume_isSome, hc]
          rfl
        rw [if_pos hcon]
        rw [pass2, hc]
        dsimp only
        rw [ih tArr', consume_filterMap tArr a tArr' hc]
      | none =>
        have hcon : (tArr.filterMap id).contains a = false := by
          rw [← consume_isSome, hc]
          rfl
        rw [if_neg (by simp only [hcon]; exact Bool.false_ne_true)]
        rw [pass2, hc]
        dsimp only
        rw [ih tArr]

lemma spec_remaining_filterMap (pairs : List (Char × Char)) :
    (pairs.map fun p => if p.1 = p.2 then none else some p.2).filterMap id
      = (pairs.filter (fun p => p.1 != p.2)).map Prod.snd := by
  induction pairs with
  | nil => simp
  | cons p rest ih =>
    obtain ⟨a, b⟩ := p
    by_cases hab : a = b <;> simp [hab, ih, bne_iff_ne]

/-- The code's two nullable-array passes compute exactly the spec's
two-pass reference. -/
lemma evaluateGuess_eq_specEval (g t : List Char) :
    evaluateGuess g t = specEval g t := by
  unfold evaluateGuess specEval specRemaining
  rw [pass1_eq]
  simp only
  rw [pass2_eq_spec, spec_remaining_filterMap]

lemma specPass2_cons_correct (a : Char) (rest : List (Char × Char)) (rem : List Char) :
    specPass2 ((a, a) :: rest) rem = Verdict.correct :: specPass2 rest rem := by
  simp [specPass2]

lemma specPass2_cons_present {a b : Char} (rest : List (Char × Char)) {rem : List Char}
    (hab : a ≠ b) (hmem : a ∈ rem) :
    specPass2 ((a, b) :: rest) rem = Verdict.present :: specPass2 rest (rem.erase a) := by
  simp [specPass2, hab, hmem]

lemma specPass2_cons_absent {a b : Char} (rest : List (Char × Char)) {rem : List Char}
    (hab : a ≠ b) (hmem : a ∉ rem) :
    specPass2 ((a, b) :: rest) rem = Verdict.absent :: specPass2 rest rem := by
  simp [specPass2, hab, hmem]

lemma specPass2_length (pairs : List (Char × Char)) :
    ∀ rem, (specPass2 pairs rem).length = pairs.length := by
  induction pairs with
  | nil => intro rem; simp [specPass2]
  | cons p rest ih =>
    intro rem
    obtain ⟨a, b⟩ := p
    by_cases hab : a = b
    · subst hab
      simp [specPass2_cons_correct, ih]
    · by_cases hmem : a ∈ rem
      · simp [specPass2_cons_present rest hab hmem, ih]
      · simp [specPass2_cons_absent rest hab hmem, ih]

/-- Pass 2 claims at most one remaining target occurrence per `present`
verdict: per letter, the scoring positions are bounded by the exact
pairs plus the remaining pool. -/
lemma specPass2_count (L : Char) (pairs : List (Char × Char)) :
    ∀ rem : List Char,
      ((pairs.map Prod.fst).zip (specPass2 pairs rem)).countP
          (fun p => p.1 == L && scores p.2)
        ≤ pairs.countP (fun p => p.1 == L && p.2 == L) + rem.count L := by
  induction pairs with
  | nil => intro rem; simp [specPass2]
  | cons p rest ih =>
    intro rem
    obtain ⟨a, b⟩ := p
    by_cases hab : a = b
    · subst hab
      rw [specPass2_cons_correct]
      have hih := ih rem
      simp only [List.map_cons, List.zip_cons_cons, List.countP_cons]
      by_cases haL : a = L
      · have hbeq : (a == L) = true := by simp [haL]
        simp only [hbeq, Bool.true_and, Bool.and_self,
          show scores Verdict.correct = true from rfl, reduceIte]
        omega
      · have hbeq : (a == L) = false := beq_eq_false_iff_ne.mpr haL
        simp only [hbeq, Bool.false_and, reduceIte]
        omega
    · by_cases hmem : a ∈ rem
      · rw [specPass2_cons_present rest hab hmem]
        simp only [List.map_cons, List.zip_cons_cons, List.countP_cons]
        by_cases haL : a = L
        · have hrem : 1 ≤ rem.count L := by
            rw [← haL]
            exact List.count_pos_iff.mpr hmem
          have herase : (rem.erase a).count L = rem.count L - 1 := by
            rw [← haL, List.count_erase_self, haL]
          have hih := ih (rem.erase a)
          rw [herase] at hih
          have hbeq : (a == L) = true := by simp [haL]
          have hbbeq : (b == L) = false :=
            beq_eq_false_iff_ne.mpr (fun hh => hab (haL.trans hh.symm))
          simp only [hbeq, hbbeq, Bool.true_and, Bool.and_false,
            show scores Verdict.present = true from rfl, reduceIte]
          omega
        · have hbeq : (a == L) = false := beq_eq_false_iff_ne.mpr haL
          have herase : (rem.erase a).count L = rem.count L := by
            rw [List.count_erase_of_ne (fun hh => haL hh.symm)]
          have hih := ih (rem.erase a)
          rw [herase] at hih
          simp only [hbeq, Bool.false_and, reduceIte]
          omega
      · rw [specPass2_cons_absent rest hab hmem]
        simp only [List.map_cons, List.zip_cons_cons, List.countP_cons]
        have hih := ih rem
        by_cases haL : a = L
        · have hbeq : (a == L) = true := by simp [haL]
          have hbbeq : (b == L) = false :=
            beq_eq_false_iff_ne.mpr (fun hh => hab (haL.trans hh.symm))
          simp only [hbeq, hbbeq, Bool.true_and, Bool.and_false,
            show scores Verdict.absent = false from rfl, reduceIte]
          omega
        · have hbeq : (a == L) = false := beq_eq_false_iff_ne.mpr haL
          simp only [hbeq, Bool.false_and, reduceIte]
          omega

/-- Every target letter occurrence is exactly one of: claimed by an
exact pair, or left in the unconsumed pool after pass 1. -/
lemma counts_split (L : Char) (pairs : List (Char × Char)) :
    pairs.countP (fun p => p.1 == L && p.2 == L)
      + ((pairs.filter (fun p => p.1 != p.2)).map Prod.snd).count L
    = (pairs.map Prod.snd).count L := by
  induction pairs with
  | nil => simp
  | cons p rest ih =>
    obtain ⟨a, b⟩ := p
    by_cases hab : a = b
    · by_cases haL : a = L
      · simp [hab, haL, List.countP_cons, List.filter_cons, List.count_cons]
        omega
      · simp [hab, haL, List.countP_cons, List.filter_cons, List.count_cons,
          beq_eq_false_iff_ne.mpr haL]
        omega
    · by_cases hbL : b = L
      · have haL : ¬ a = L := fun hh => hab (hh.trans hbL.symm)
        simp [hab, hbL, haL, List.countP_cons, List.filter_cons, List.count_cons,
          bne_iff_ne.mpr hab]
        omega
      · simp [hab, hbL, List.countP_cons, List.filter_cons, List.count_cons,
          bne_iff_ne.mpr hab, beq_eq_false_iff_ne.mpr hbL]
        omega

lemma pass1_self (w : List Char) :
    pass1 w w = (List.replicate w.length none, List.replicate w.length none,
                 List.replicate w.length Verdict.correct) := by
  induction w with
  | nil => simp [pass1]
  | cons a ws ih => simp [pass1, ih, List.replicate_succ]

lemma pass2_replicate_none (n : Nat) :
    ∀ (rs : List Verdict) (tArr : List (Option Char)), rs.length = n →
      pass2 (List.replicate n none) rs tArr = rs := by
  induction n with
  | zero =>
    intro rs tArr h
    rw [List.length_eq_zero] at h
    subst h
    simp [pass2]
  | succ m ih =>
    intro rs tArr h
    cases rs with
    | nil => simp at h
    | cons r rs' =>
      simp only [List.replicate_succ, pass2]
      rw [ih rs' tArr (by simpa using h)]

lemma evaluateGuess_self (w : List Char) :
    evaluateGuess w w = List.replicate w.length Verdict.correct := by
  unfold evaluateGuess
  rw [pass1_self]
  exact pass2_replicate_none w.length _ _ (by simp)

lemma specPass2_getElem?_correct (pairs : List (Char × Char)) :
    ∀ (rem : List Char) (i : Nat),
      (specPass2 pairs rem)[i]? = some Verdict.correct ↔
        ∃ a : Char, pairs[i]? = some (a, a) := by
  induction pairs with
  | nil =>
    intro rem i
    simp [specPass2]
  | cons p rest ih =>
    intro rem i
    obtain ⟨a, b⟩ := p
    by_cases hab : a = b
    · subst hab
      cases i with
      | zero => simp [specPass2]
      | succ j => simpa [specPass2] using ih rem j
    · by_cases hmem : a ∈ rem
      · have hstep : specPass2 ((a, b) :: rest) rem
            = Verdict.present :: specPass2 rest (rem.erase a) := by
          simp [specPass2, hab, hmem]
        cases i with
        | zero =>
          simp [hstep, hab]
          exact fun hh => hab hh.symm
        | succ j => simpa [hstep] using ih (rem.erase a) j
      · have hstep : specPass2 ((a, b) :: rest) rem
            = Verdict.absent :: specPass2 rest rem := by
          simp [specPass2, hab, hmem]
        cases i with
        | zero =>
          simp [hstep, hab]
          exact fun hh => hab hh.symm
        | succ j => simpa [hstep] using ih rem j

lemma evaluateGuess_length (g t : List Char) (h : g.length = t.length) :
    (evaluateGuess g t).length = g.length := by
  rw [evaluateGuess_eq_specEval]
  unfold specEval
  rw [specPass2_length, List.length_zip]
  omega

/-- `toUpperCase` is idempotent on each character (only basic latin
letters are changed). -/
lemma char_toUpper_idem (c : Char) : c.toUpper.toUpper = c.toUpper := by
  unfold Char.toUpper
  simp only [Char.toNat]
  split
  · next h =>
    obtain ⟨h1, h2⟩ := h
    have hv : Nat.isValidChar (c.val.toNat - 32) := by
      left
      omega
    rw [Char.ofNat, dif_pos hv]
    have ht : (Char.ofNatAux (c.val.toNat - 32) hv).val.toNat = c.val.toNat - 32 := by
      simp [Char.ofNatAux, UInt32.toNat, BitVec.toNat_ofNatLt]
    rw [if_neg]
    omega
  · rfl

lemma map_toUpper_idem (l : List Char) :
    (l.map Char.toUpper).map Char.toUpper = l.map Char.toUpper := by
  rw [List.map_map]
  exact List.map_congr_left (fun c _ => char_toUpper_idem c)

/-- C1: for every pair of non-empty, equal-length (canonicalized) words,
the `/api/guess` evaluation algorithm computes exactly the spec's
two-pass reference: pass 1 marks and consumes all positional matches,
then pass 2 gives each remaining guess position the verdict `present`
while consuming the leftmost unconsumed equal target occurrence, else
`absent`. -/
theorem evaluator_matches_two_pass_reference (g t : List Char)
    (hg : g ≠ []) (hlen : g.length = t.length) :
    evaluateGuess g t = specEval g t :=
  evaluateGuess_eq_specEval g t

theorem evaluator_matches_two_pass_reference_witness :
    evaluateGuess "ROBOT".data "LIBRO".data = specEval "ROBOT".data "LIBRO".data :=
  evaluator_matches_two_pass_reference "ROBOT".data "LIBRO".data (by decide) (by decide)

/-- C2: for every pair of non-empty, equal-length words and every letter
L, the number of guess positions holding L whose verdict is exact
(`correct`) or `present` never exceeds the number of occurrences of L in
the target. -/
theorem duplicate_count_invariant (g t : List Char) (hg : g ≠ [])
    (hlen : g.length = t.length) (L : Char) :
    (g.zip (evaluateGuess g t)).countP
        (fun p => p.1 == L && (p.2 == Verdict.correct || p.2 == Verdict.present))
      ≤ t.count L := by
  have hfst : (g.zip t).map Prod.fst = g :=
    List.map_fst_zip g t (le_of_eq hlen)
  have hsnd : (g.zip t).map Prod.snd = t :=
    List.map_snd_zip g t (le_of_eq hlen.symm)
  have hkey := specPass2_count L (g.zip t) (specRemaining g t)
  rw [hfst] at hkey
  have hsplit := counts_split L (g.zip t)
  rw [hsnd] at hsplit
  rw [evaluateGuess_eq_specEval]
  unfold specEval
  refine le_trans hkey ?_
  have hrem : (specRemaining g t).count L
      = (((g.zip t).filter (fun p => p.1 != p.2)).map Prod.snd).count L := rfl
  omega

theorem duplicate_count_invariant_witness :
    (("NONN".data).zip (evaluateGuess "NONN".data "ANNO".data)).countP
        (fun p => p.1 == 'N' && (p.2 == Verdict.correct || p.2 == Verdict.present))
      ≤ ("ANNO".data).count 'N' :=
  duplicate_count_invariant "NONN".data "ANNO".data (by decide) (by decide) 'N'

/-- C3 as stated is false: the code evaluates guess `NONN` against
target `ANNO` to `[present, present, exact, absent]`, not to
`[present, exact, absent, absent]` — the exact match is at position 2
(the spec's walkthrough mis-indexes the guess letters). -/
theorem nonn_anno_claimed_value_refuted :
    ¬ (apiGuess (some "NONN".data) (some "ANNO".data)
        = Except.ok ([Verdict.present, Verdict.correct, Verdict.absent, Verdict.absent],
            "NONN".data)) := by
  intro h
  exact absurd (Except.ok.inj h) (by decide)

/-- C3 amended: evaluating guess `NONN` against target `ANNO` produces
the verdict sequence `[present, present, exact, absent]`: position 2 is
the exact `N`/`N` match; position 0's `N` consumes the target's `N` at
index 1, position 1's `O` consumes the target's `O` at index 3, and
position 3's `N` finds no unconsumed occurrence. -/
theorem nonn_anno_verdicts :
    apiGuess (some "NONN".data) (some "ANNO".data)
      = Except.ok ([Verdict.present, Verdict.present, Verdict.correct, Verdict.absent],
          "NONN".data) := by
  rfl

/-- The guard rejects words of different lengths with the 400 error. -/
lemma apiGuess_error_of_length (g t : List Char) (h : g.length ≠ t.length) :
    apiGuess (some g) (some t) = Except.error "Dati non validi." := by
  simp [apiGuess, bne_iff_ne.mpr h]

/-- The falsy guard rejects an empty guess or target with the 400 error. -/
lemma apiGuess_error_of_empty (guess target : Option (List Char))
    (h : guess = some [] ∨ target = some []) :
    apiGuess guess target = Except.error "Dati non validi." := by
  rcases h with h | h
  · subst h
    cases target with
    | none => rfl
    | some t => simp [apiGuess]
  · subst h
    cases guess with
    | none => rfl
    | some g => simp [apiGuess]

/-- C4: words of different lengths are rejected by the handler's guard
(`guess.length !== target.length`), which signals the length-mismatch
condition as the single folded 400 error `'Dati non validi.'` and
produces no verdict result. -/
theorem length_mismatch_rejected (g t : List Char) (h : g.length ≠ t.length) :
    apiGuess (some g) (some t) = Except.error "Dati non validi." :=
  apiGuess_error_of_length g t h

theorem length_mismatch_rejected_witness :
    apiGuess (some "AB".data) (some "ABC".data) = Except.error "Dati non validi." :=
  length_mismatch_rejected "AB".data "ABC".data (by decide)

/-- C5: evaluating guess `ROBOT` against target `LIBRO` produces
`[present, present, exact, absent, absent]`: the single target `O` is
consumed by the guess's first `O` (position 1), so the guess's second
`O` (position 3) is `absent`. -/
theorem robot_libro_verdicts :
    apiGuess (some "ROBOT".data) (some "LIBRO".data)
      = Except.ok ([Verdict.present, Verdict.present, Verdict.correct, Verdict.absent,
          Verdict.absent], "ROBOT".data) := by
  rfl

/-- C6: for every non-empty word, evaluating the word against itself
yields all-exact verdicts, and the caller's win condition
(`result.every(r => r === 'correct')` in game.js) therefore holds. -/
theorem self_guess_wins (w : List Char) (h : w ≠ []) :
    evaluateGuess w w = List.replicate w.length Verdict.correct ∧
      haVinto (evaluateGuess w w) = true := by
  refine ⟨evaluateGuess_self w, ?_⟩
  rw [evaluateGuess_self]
  simp [haVinto]

theorem self_guess_wins_witness :
    evaluateGuess "STARE".data "STARE".data
        = List.replicate ("STARE".data).length Verdict.correct ∧
      haVinto (evaluateGuess "STARE".data "STARE".data) = true :=
  self_guess_wins "STARE".data (by decide)

/-- C7: the evaluator is case-insensitive: on every valid input the
response carries the verdicts of the two uppercased words together with
the uppercased guess text, and the whole response is unchanged when the
caller uppercases both inputs beforehand. -/
theorem evaluator_case_insensitive (g t : List Char) (hg : g ≠ []) (ht : t ≠ [])
    (hlen : g.length = t.length) :
    apiGuess (some g) (some t)
        = Except.ok (evaluateGuess (g.map Char.toUpper) (t.map Char.toUpper),
            g.map Char.toUpper)
      ∧ apiGuess (some g) (some t)
        = apiGuess (some (g.map Char.toUpper)) (some (t.map Char.toUpper)) := by
  have h1 : apiGuess (some g) (some t)
      = Except.ok (evaluateGuess (g.map Char.toUpper) (t.map Char.toUpper),
          g.map Char.toUpper) := by
    simp [apiGuess, hg, ht, hlen]
  have h2 : apiGuess (some (g.map Char.toUpper)) (some (t.map Char.toUpper))
      = Except.ok (evaluateGuess (g.map Char.toUpper) (t.map Char.toUpper),
          g.map Char.toUpper) := by
    have hcomp : Char.toUpper ∘ Char.toUpper = Char.toUpper := funext char_toUpper_idem
    simp [apiGuess, hg, ht, hlen, hcomp]
  exact ⟨h1, h1.trans h2.symm⟩

theorem evaluator_case_insensitive_witness :
    apiGuess (some "robot".data) (some "LIBRO".data)
        = Except.ok (evaluateGuess ("robot".data.map Char.toUpper)
            ("LIBRO".data.map Char.toUpper), "robot".data.map Char.toUpper)
      ∧ apiGuess (some "robot".data) (some "LIBRO".data)
        = apiGuess (some ("robot".data.map Char.toUpper))
            (some ("LIBRO".data.map Char.toUpper)) :=
  evaluator_case_insensitive "robot".data "LIBRO".data (by decide) (by decide) (by decide)

/-- C8: an empty guess or target is caught by the handler's falsy guard
(`!guess || !target`), which signals the empty-input condition folded
into the single 400 error `'Dati non validi.'`, and no verdict result is
produced. -/
theorem empty_input_rejected (guess target : Option (List Char))
    (h : guess = some [] ∨ target = some []) :
    apiGuess guess target = Except.error "Dati non validi." :=
  apiGuess_error_of_empty guess target h

theorem empty_input_rejected_witness :
    apiGuess (some []) (some "AB".data) = Except.error "Dati non validi." :=
  empty_input_rejected (some []) (some "AB".data) (Or.inl rfl)

/-- C9: on non-empty, equal-length canonicalized words the result has
one verdict per guess position, and a position's verdict is exact
(`correct`) precisely when the guess and target letters coincide there:
pass 2 never reclassifies a positional match, and each position carries
exactly one of the three labels. -/
theorem exact_iff_positional_match (g t : List Char) (hg : g ≠ [])
    (hlen : g.length = t.length) :
    (evaluateGuess g t).length = g.length ∧
      ∀ i : Nat, i < g.length →
        ((evaluateGuess g t)[i]? = some Verdict.correct ↔ g[i]? = t[i]?) := by
  refine ⟨evaluateGuess_length g t hlen, ?_⟩
  intro i hi
  have hi' : i < t.length := hlen ▸ hi
  rw [evaluateGuess_eq_specEval]
  unfold specEval
  rw [specPass2_getElem?_correct]
  have hgi : g[i]? = some g[i] := List.getElem?_eq_getElem hi
  have hti : t[i]? = some t[i] := List.getElem?_eq_getElem hi'
  constructor
  · rintro ⟨a, ha⟩
    rw [List.getElem?_zip_eq_some] at ha
    obtain ⟨ha1, ha2⟩ := ha
    rw [ha1, ha2]
  · intro heq
    exact ⟨g[i], List.getElem?_zip_eq_some.mpr ⟨hgi, heq ▸ hgi⟩⟩

theorem exact_iff_positional_match_witness :
    (evaluateGuess "NONN".data "ANNO".data).length = ("NONN".data).length ∧
      ∀ i : Nat, i < ("NONN".data).length →
        ((evaluateGuess "NONN".data "ANNO".data)[i]? = some Verdict.correct ↔
          ("NONN".data)[i]? = ("ANNO".data)[i]?) :=
  exact_iff_positional_match "NONN".data "ANNO".data (by decide) (by decide)

/-- C10: the handler checks no dictionary and no alphabet: it fails
precisely when the guess or target is missing or empty or the lengths
differ, and on every other input — including non-words and non-letter
characters — it succeeds with one verdict per guess position and the
uppercased guess. -/
theorem no_dictionary_or_alphabet_check (guess target : Option (List Char)) :
    ((∃ v, apiGuess guess target = Except.ok v) ↔
      ∃ g t, guess = some g ∧ target = some t ∧ g ≠ [] ∧ t ≠ [] ∧
        g.length = t.length) ∧
    (∀ g r cu, guess = some g → apiGuess guess target = Except.ok (r, cu) →
      r.length = g.length ∧ cu = g.map Char.toUpper) := by
  cases guess with
  | none =>
    constructor
    · constructor
      · rintro ⟨v, hv⟩
        cases target <;> cases hv
      · rintro ⟨g', t', hg', -⟩
        cases hg'
    · intro g' r cu hg'
      cases hg'
  | some g =>
    cases target with
    | none =>
      constructor
      · constructor
        · rintro ⟨v, hv⟩
          cases hv
        · rintro ⟨g', t', hg', ht', -⟩
          cases ht'
      · intro g' r cu hg' hok
        cases hok
    | some t =>
      by_cases hge : g = []
      · have herr : apiGuess (some g) (some t) = Except.error "Dati non validi." :=
          apiGuess_error_of_empty (some g) (some t) (Or.inl (by rw [hge]))
        constructor
        · constructor
          · rintro ⟨v, hv⟩
            rw [herr] at hv
            cases hv
          · rintro ⟨g', t', hg', ht', hne, -⟩
            obtain rfl := Option.some.inj hg'
            exact absurd hge hne
        · intro g' r cu hg' hok
          rw [herr] at hok
          cases hok
      · by_cases hte : t = []
        · have herr : apiGuess (some g) (some t) = Except.error "Dati non validi." :=
            apiGuess_error_of_empty (some g) (some t) (Or.inr (by rw [hte]))
          constructor
          · constructor
            · rintro ⟨v, hv⟩
              rw [herr] at hv
              cases hv
            · rintro ⟨g', t', hg', ht', hne, hte', -⟩
              obtain rfl := Option.some.inj ht'
              exact absurd hte hte'
          · intro g' r cu hg' hok
            rw [herr] at hok
            cases hok
        · by_cases hl : g.length = t.length
          · have hok : apiGuess (some g) (some t)
                = Except.ok (evaluateGuess (g.map Char.toUpper) (t.map Char.toUpper),
                    g.map Char.toUpper) := by
              simp [apiGuess, hge, hte, hl]
            constructor
            · constructor
              · intro _
                exact ⟨g, t, rfl, rfl, hge, hte, hl⟩
              · intro _
                exact ⟨_, hok⟩
            · intro g' r cu hg' hr
              obtain rfl := Option.some.inj hg'
              rw [hok] at hr
              have hpair := Except.ok.inj hr
              have hres : evaluateGuess (g.map Char.toUpper) (t.map Char.toUpper) = r :=
                congrArg Prod.fst hpair
              have hcu : g.map Char.toUpper = cu := congrArg Prod.snd hpair
              constructor
              · rw [← hres]
                rw [evaluateGuess_length _ _ (by simp [hl])]
                simp
              · exact hcu.symm
          · have herr : apiGuess (some g) (some t) = Except.error "Dati non validi." :=
              apiGuess_error_of_length g t hl
            constructor
            · constructor
              · rintro ⟨v, hv⟩
                rw [herr] at hv
                cases hv
              · rintro ⟨g', t', hg', ht', -, -, hl'⟩
                obtain rfl := Option.some.inj hg'
                obtain rfl := Option.some.inj ht'
                exact absurd hl' hl
            · intro g' r cu hg' hok
              rw [herr] at hok
              cases hok

theorem no_dictionary_or_alphabet_check_witness :
    ∃ v, apiGuess (some "QZ3!".data) (some "9#XW".data) = Except.ok v :=
  (no_dictionary_or_alphabet_check (some "QZ3!".data) (some "9#XW".data)).1.mpr
    ⟨"QZ3!".data, "9#XW".data, rfl, rfl, by decide, by decide, by decide⟩

end Wordle
